import Mathlib

/-!
Verification of git-linecat (src/main.rs): a streaming classifier that turns
git log output (header lines, numstat path lines, blank separators) into
Change records.

The embedding models:
  - the two recap regexes (Header and Path) as a small leftmost-first,
    greedy backtracking matcher over an explicit token list (literal
    characters and one-or-more character-class repetitions), which is the
    match semantics of the Rust regex crate for these patterns;
  - character classes at ASCII granularity (the input is git log text);
  - usize field parsing with its 64-bit overflow failure;
  - std path extension extraction (file_name of the last normal component,
    then the part after the last non-leading dot);
  - the try_fold state machine in run, with the sink abstracted as a
    function from emission index to success/failure.
-/

namespace GitLinecat

/-- One token of a regex pattern: a literal character, or a one-or-more
greedy repetition of a character class, optionally a capture group. -/
inductive Tok where
  | lit : Char → Tok
  | plus : (Char → Bool) → Bool → Tok

/-- Length of the maximal prefix of the input whose characters all satisfy
the class. This is the most a greedy one-or-more repetition can consume. -/
def charsMatching (p : Char → Bool) : List Char → Nat
  | [] => 0
  | c :: rest => if p c then charsMatching p rest + 1 else 0

/-- Greedy backtracking for a one-or-more repetition: try consuming the
longest candidate run first, retreating one character at a time, requiring
at least one character. -/
def tryLens (f : List Char → Option (List (List Char))) (captured : Bool)
    (s : List Char) : Nat → Option (List (List Char))
  | 0 => none
  | Nat.succ k =>
    match f (s.drop (k + 1)) with
    | some caps => some (if captured then s.take (k + 1) :: caps else caps)
    | none => tryLens f captured s k

/-- Match a token list against a prefix of the input (trailing input is
unconstrained), returning the list of captured substrings. Greedy
repetitions backtrack, so this computes the preference-first match of a
backtracking regex engine. -/
def matchToks : List Tok → List Char → Option (List (List Char))
  | [], _ => some []
  | Tok.lit _ :: _, [] => none
  | Tok.lit c :: rest, c2 :: s2 => if c2 = c then matchToks rest s2 else none
  | Tok.plus p captured :: rest, s =>
    tryLens (fun t => matchToks rest t) captured s (charsMatching p s)

/-- Unanchored search: try to match at each start position from the left,
returning the first (leftmost) success. This is the semantics of
Regex::captures in the Rust regex crate for these patterns. -/
def searchToks (toks : List Tok) : List Char → Option (List (List Char))
  | [] => matchToks toks []
  | c :: rest =>
    match matchToks toks (c :: rest) with
    | some caps => some caps
    | none => searchToks toks rest

/-- Whitespace character class, the ASCII part of the regex class used by
the patterns. -/
def isWs (c : Char) : Bool :=
  c = ' ' || c = '\t' || c = '\n' || c = '\r' || c = '\x0b' || c = '\x0c'

/-- Complement class of isWs, modelling the non-whitespace regex class. -/
def notWs (c : Char) : Bool := !(isWs c)

/-- The any-character regex class, which excludes only the newline. -/
def anyChar (c : Char) : Bool := !(c = '\n')

/-- Token list of the Header regex from src/main.rs: a double-quoted,
comma-separated triple, the first two fields runs of non-whitespace, the
third a run of arbitrary non-newline characters. -/
def headerToks : List Tok :=
  [Tok.lit '"', Tok.plus notWs true, Tok.lit '"', Tok.lit ',',
   Tok.lit '"', Tok.plus notWs true, Tok.lit '"', Tok.lit ',',
   Tok.lit '"', Tok.plus anyChar true, Tok.lit '"']

/-- Token list of the Path regex from src/main.rs: digits, whitespace,
digits, whitespace, a run of non-whitespace characters; only the digit
runs and the path are captured. -/
def pathToks : List Tok :=
  [Tok.plus Char.isDigit true, Tok.plus isWs false,
   Tok.plus Char.isDigit true, Tok.plus isWs false,
   Tok.plus notWs true]

/-- Decimal value of a digit string. -/
def digitsToNat (l : List Char) : Nat :=
  l.foldl (fun n c => n * 10 + (c.toNat - '0'.toNat)) 0

/-- One past the largest value a 64-bit usize can hold: parsing a decimal
number at or above this bound fails in the Rust code. -/
def usizeBound : Nat := 2 ^ 64

/-- Parse a captured digit run as a usize, failing on overflow exactly as
usize::from_str does (the value, not the digit count, is what matters). -/
def parseUsize (l : List Char) : Option Nat :=
  if digitsToNat l < usizeBound then some (digitsToNat l) else none

/-- The Header struct of src/main.rs. -/
structure Header where
  sha : String
  author : String
  timestamp : String
deriving DecidableEq, Repr

/-- The Path struct of src/main.rs (a text-only numstat line). -/
structure Path where
  additions : Nat
  deletions : Nat
  path : String
deriving DecidableEq, Repr

/-- The Category enum of src/main.rs. -/
inductive Category where
  | Test
  | Default
deriving DecidableEq, Repr

/-- The Change output record of src/main.rs. -/
structure Change where
  repo : String
  sha : String
  author : String
  timestamp : String
  path : String
  ext : Option String
  category : Category
  additions : Nat
  deletions : Nat
deriving DecidableEq, Repr

/-- Header line parsing on character lists, as derived for the Header
struct by recap: search the line for the header regex and read the three
captures as strings. -/
def parseHeaderL (s : List Char) : Option Header :=
  match searchToks headerToks s with
  | some [sha, author, timestamp] =>
    some ⟨String.mk sha, String.mk author, String.mk timestamp⟩
  | _ => none

/-- Header line parsing, the FromStr impl recap derives for Header. -/
def parseHeader (line : String) : Option Header := parseHeaderL line.data

/-- Path line parsing on character lists, as derived for the Path struct
by recap: search the line for the path regex, then deserialize the numeric
captures as usize (which can fail on overflow) and the path capture as a
string. -/
def parsePathL (s : List Char) : Option Path :=
  match searchToks pathToks s with
  | some [a, d, p] =>
    match parseUsize a, parseUsize d with
    | some additions, some deletions => some ⟨additions, deletions, String.mk p⟩
    | _, _ => none
  | _ => none

/-- Path line parsing, the FromStr impl recap derives for Path. -/
def parsePath (line : String) : Option Path := parsePathL line.data

/-- Whether a token is a capture group. -/
def isCap : Tok → Bool
  | Tok.plus _ captured => captured
  | _ => false

/-- Number of capture groups in a pattern. -/
def countCaps (toks : List Tok) : Nat := toks.countP isCap

/-- Whether the list contains a digit immediately followed by a whitespace
character. Any match of the path regex needs one, which is why
binary-marker lines can never match it. -/
def hasDigitWs : List Char → Bool
  | a :: b :: rest => (a.isDigit && isWs b) || hasDigitWs (b :: rest)
  | _ => false

/-- Substring containment on character lists, modelling str::contains. -/
def containsSeq (pat : List Char) : List Char → Bool
  | [] => decide (pat = [])
  | c :: rest => pat.isPrefixOf (c :: rest) || containsSeq pat rest

/-- Change::categorize from src/main.rs: Test when the path contains the
literal substring "test", Default otherwise. -/
def Change.categorize (path : String) : Category :=
  if containsSeq "test".data path.data then Category.Test else Category.Default

/-- Split a character list on a separator character, keeping empty
segments, as str::split does. -/
def splitOnChar (sep : Char) : List Char → List (List Char)
  | [] => [[]]
  | c :: rest =>
    match splitOnChar sep rest with
    | [] => [[]]
    | h :: t => if c = sep then [] :: h :: t else (c :: h) :: t

/-- std::path::Path::file_name on Unix: the last component after dropping
empty segments and dot segments, unless it is the parent-directory
component. -/
def fileName (l : List Char) : Option (List Char) :=
  match ((splitOnChar '/' l).filter
      (fun seg => !(decide (seg = []) || decide (seg = ['.'])))).getLast? with
  | none => none
  | some last => if last = ['.', '.'] then none else some last

/-- The characters after the last dot of the list, or none when the list
has no dot. -/
def afterLastDot : List Char → Option (List Char)
  | [] => none
  | c :: rest =>
    match afterLastDot rest with
    | some e => some e
    | none => if c = '.' then some rest else none

/-- std::path::Path::extension composed with OsStr::to_str as used in
src/main.rs: the part of the file name after its last non-leading dot.
The to_str step never fails here since the model works on Unicode text. -/
def pathExtension (path : String) : Option String :=
  match fileName path.data with
  | some (_ :: rest) => (afterLastDot rest).map String.mk
  | _ => none

/-- The Into Change conversion for (String, Header, Path) from
src/main.rs: copy the fields and compute category and extension. -/
def intoChange (repo : String) (h : Header) (p : Path) : Change :=
  { repo := repo
    sha := h.sha
    author := h.author
    timestamp := h.timestamp
    path := p.path
    ext := pathExtension p.path
    category := Change.categorize p.path
    additions := p.additions
    deletions := p.deletions }

/-- The State enum of the run fold in src/main.rs. -/
inductive State where
  | Reset
  | Next : Header → State
  | Emit : Header → Path → State

/-- The ways a run can fail: a line that parses neither as required, or a
failing sink emission. -/
inductive RunError where
  | parseFailure : String → RunError
  | sinkFailure : RunError
deriving DecidableEq, Repr

/-- Observable outcome of a run: the changes the sink accepted in order,
the error that stopped the run if any, and the input lines never consumed
from the iterator. -/
structure RunResult where
  emitted : List Change
  error : Option RunError
  leftover : List String
deriving DecidableEq, Repr

/-- Rust line.starts_with with the dash character. -/
def startsDash (s : String) : Bool :=
  match s.data with
  | [] => false
  | c :: _ => c = '-'

/-- The try_fold body of run in src/main.rs, processing one line at a time.
The sink is modelled by sinkOk, which says whether the emission with a
given index succeeds; n counts emissions made so far and acc accumulates
them in reverse. Errors stop the fold with the remaining lines unread. -/
def runAux (repo : String) (sinkOk : Nat → Bool) :
    List String → State → Nat → List Change → RunResult
  | [], _, _, acc => ⟨acc.reverse, none, []⟩
  | line :: rest, State.Reset, n, acc =>
    match parseHeader line with
    | some h => runAux repo sinkOk rest (State.Next h) n acc
    | none => ⟨acc.reverse, some (RunError.parseFailure line), rest⟩
  | line :: rest, State.Next h, n, acc =>
    if line = "" then runAux repo sinkOk rest State.Reset n acc
    else if startsDash line then runAux repo sinkOk rest (State.Next h) n acc
    else
      match parsePath line with
      | some p => runAux repo sinkOk rest (State.Emit h p) n acc
      | none =>
        match parseHeader line with
        | some h2 => runAux repo sinkOk rest (State.Next h2) n acc
        | none => ⟨acc.reverse, some (RunError.parseFailure line), rest⟩
  | line :: rest, State.Emit h p, n, acc =>
    if sinkOk n then
      if line = "" then
        runAux repo sinkOk rest State.Reset (n + 1) (intoChange repo h p :: acc)
      else
        runAux repo sinkOk rest (State.Next h) (n + 1) (intoChange repo h p :: acc)
    else ⟨acc.reverse, some RunError.sinkFailure, rest⟩

/-- run from src/main.rs: fold the lines from the Reset state. -/
def run (repo : String) (sinkOk : Nat → Bool) (lines : List String) : RunResult :=
  runAux repo sinkOk lines State.Reset 0 []

/-- Ghost instrumentation of runAux: the same fold, but recording, for each
successful emission, the header and path the machine held in its Emit state
at that moment instead of the assembled Change. -/
def runAuxT (sinkOk : Nat → Bool) :
    List String → State → Nat → List (Header × Path) → List (Header × Path)
  | [], _, _, acc => acc.reverse
  | line :: rest, State.Reset, n, acc =>
    match parseHeader line with
    | some h => runAuxT sinkOk rest (State.Next h) n acc
    | none => acc.reverse
  | line :: rest, State.Next h, n, acc =>
    if line = "" then runAuxT sinkOk rest State.Reset n acc
    else if startsDash line then runAuxT sinkOk rest (State.Next h) n acc
    else
      match parsePath line with
      | some p => runAuxT sinkOk rest (State.Emit h p) n acc
      | none =>
        match parseHeader line with
        | some h2 => runAuxT sinkOk rest (State.Next h2) n acc
        | none => acc.reverse
  | line :: rest, State.Emit h p, n, acc =>
    if sinkOk n then
      if line = "" then runAuxT sinkOk rest State.Reset (n + 1) ((h, p) :: acc)
      else runAuxT sinkOk rest (State.Next h) (n + 1) ((h, p) :: acc)
    else acc.reverse

/-- The header/path provenance trace of a whole run. -/
def runT (sinkOk : Nat → Bool) (lines : List String) : List (Header × Path) :=
  runAuxT sinkOk lines State.Reset 0 []

/-- A sink that accepts every emission. -/
def allOk : Nat → Bool := fun _ => true

/-- A sink that rejects every emission. -/
def neverOk : Nat → Bool := fun _ => false

/-- Modelled from the spec (section 4.3): the Extension Extractor rule in
the spec's own words — the substring after the final dot of the final
path-separator-delimited component, absent when that component has no dot
or its only dot is the leading character. Used to compare the spec's rule
against the code's pathExtension. -/
def specExtractor (p : String) : Option String :=
  match (splitOnChar '/' p.data).getLastD [] with
  | [] => none
  | _ :: rest => (afterLastDot rest).map String.mk

/-! ### Lemmas about the regex matcher -/

theorem tryLens_isSome_iff (f : List Char → Option (List (List Char))) (captured : Bool)
    (s : List Char) (k : Nat) :
    (tryLens f captured s k).isSome = true ↔
      ∃ j, 1 ≤ j ∧ j ≤ k ∧ (f (s.drop j)).isSome = true := by
  induction k with
  | zero =>
    constructor
    · intro h
      simp [tryLens] at h
    · rintro ⟨j, h1, h2, -⟩
      omega
  | succ k ih =>
    simp only [tryLens]
    cases hf : f (s.drop (k + 1)) with
    | some caps =>
      constructor
      · intro _
        exact ⟨k + 1, by omega, by omega, by simp [hf]⟩
      · intro _
        simp
    | none =>
      rw [ih]
      constructor
      · rintro ⟨j, h1, h2, h3⟩
        exact ⟨j, h1, by omega, h3⟩
      · rintro ⟨j, h1, h2, h3⟩
        rcases Nat.lt_or_ge j (k + 1) with hlt | hge
        · exact ⟨j, h1, by omega, h3⟩
        · have hj : j = k + 1 := by omega
          subst hj
          rw [hf] at h3
          simp at h3

theorem matchToks_plus_isSome_iff (p : Char → Bool) (captured : Bool) (rest : List Tok)
    (s : List Char) :
    (matchToks (Tok.plus p captured :: rest) s).isSome = true ↔
      ∃ j, 1 ≤ j ∧ j ≤ charsMatching p s ∧ (matchToks rest (s.drop j)).isSome = true := by
  simp only [matchToks]
  exact tryLens_isSome_iff _ _ _ _

theorem charsMatching_le_length (p : Char → Bool) (s : List Char) :
    charsMatching p s ≤ s.length := by
  induction s with
  | nil => simp [charsMatching]
  | cons c rest ih =>
    simp only [charsMatching, List.length_cons]
    split
    · omega
    · omega

theorem charsMatching_le_append (p : Char → Bool) (s t : List Char) :
    charsMatching p s ≤ charsMatching p (s ++ t) := by
  induction s with
  | nil => simp [charsMatching]
  | cons c rest ih =>
    simp only [List.cons_append, List.append_eq, charsMatching]
    by_cases hc : p c
    · simp only [if_pos hc]
      omega
    · simp only [if_neg hc]
      omega

theorem charsMatching_take (p : Char → Bool) (s : List Char) (k : Nat)
    (h : k ≤ charsMatching p s) : (s.take k).all p = true := by
  induction s generalizing k with
  | nil =>
    simp [charsMatching] at h
    simp [h]
  | cons c rest ih =>
    cases k with
    | zero => simp
    | succ k =>
      simp only [charsMatching] at h
      by_cases hc : p c
      · rw [if_pos hc] at h
        simp only [List.take_succ_cons, List.all_cons, hc, Bool.true_and]
        exact ih k (by omega)
      · rw [if_neg hc] at h
        omega

theorem charsMatching_pos (p : Char → Bool) (s : List Char)
    (h : 1 ≤ charsMatching p s) : ∃ c t, s = c :: t ∧ p c = true := by
  cases s with
  | nil => simp [charsMatching] at h
  | cons c t =>
    refine ⟨c, t, rfl, ?_⟩
    by_cases hc : p c
    · exact hc
    · simp [charsMatching, hc] at h

theorem matchToks_isSome_append (toks : List Tok) (s t : List Char)
    (h : (matchToks toks s).isSome = true) :
    (matchToks toks (s ++ t)).isSome = true := by
  induction toks generalizing s with
  | nil => simp [matchToks]
  | cons tok rest ih =>
    cases tok with
    | lit c =>
      cases s with
      | nil => simp [matchToks] at h
      | cons c2 s2 =>
        simp only [matchToks, List.cons_append] at h ⊢
        by_cases hc : c2 = c
        · rw [if_pos hc] at h ⊢
          exact ih s2 h
        · rw [if_neg hc] at h
          simp at h
    | plus p captured =>
      rw [matchToks_plus_isSome_iff] at h ⊢
      obtain ⟨j, h1, h2, h3⟩ := h
      refine ⟨j, h1, le_trans h2 (charsMatching_le_append p s t), ?_⟩
      have hj : j ≤ s.length := le_trans h2 (charsMatching_le_length p s)
      rw [List.drop_append_eq_append_drop]
      rw [show j - s.length = 0 from by omega, List.drop_zero]
      exact ih (s.drop j) h3

theorem searchToks_isSome_iff (toks : List Tok) (s : List Char) :
    (searchToks toks s).isSome = true ↔
      ∃ i, i ≤ s.length ∧ (matchToks toks (s.drop i)).isSome = true := by
  induction s with
  | nil =>
    simp only [searchToks]
    constructor
    · intro h
      exact ⟨0, by omega, by simpa using h⟩
    · rintro ⟨i, hi, h⟩
      simpa using h
  | cons c rest ih =>
    simp only [searchToks]
    cases hm : matchToks toks (c :: rest) with
    | some caps =>
      constructor
      · intro _
        exact ⟨0, by omega, by simp [hm]⟩
      · intro _
        simp
    | none =>
      rw [ih]
      constructor
      · rintro ⟨i, hi, h⟩
        refine ⟨i + 1, by simp; omega, by simpa using h⟩
      · rintro ⟨i, hi, h⟩
        cases i with
        | zero =>
          rw [List.drop_zero, hm] at h
          simp at h
        | succ i =>
          refine ⟨i, by simp at hi; omega, by simpa using h⟩

theorem searchToks_eq_some (toks : List Tok) (s : List Char) (caps : List (List Char))
    (h : searchToks toks s = some caps) :
    ∃ i, matchToks toks (s.drop i) = some caps := by
  induction s with
  | nil => exact ⟨0, by simpa [searchToks] using h⟩
  | cons c rest ih =>
    simp only [searchToks] at h
    cases hm : matchToks toks (c :: rest) with
    | some caps2 =>
      rw [hm] at h
      exact ⟨0, by rw [List.drop_zero, hm]; exact h⟩
    | none =>
      rw [hm] at h
      obtain ⟨i, hi⟩ := ih h
      exact ⟨i + 1, by simpa using hi⟩

theorem searchToks_infix (toks : List Tok) (s pre suf : List Char)
    (h : (searchToks toks s).isSome = true) :
    (searchToks toks (pre ++ s ++ suf)).isSome = true := by
  rw [searchToks_isSome_iff] at h ⊢
  obtain ⟨i, hi, hm⟩ := h
  refine ⟨pre.length + i, by simp [List.length_append]; omega, ?_⟩
  have hm2 := matchToks_isSome_append _ _ suf hm
  have heq : (pre ++ s ++ suf).drop (pre.length + i) = s.drop i ++ suf := by
    rw [List.append_assoc, List.drop_append_eq_append_drop]
    rw [List.drop_eq_nil_of_le (by omega)]
    simp only [List.nil_append]
    rw [show pre.length + i - pre.length = i from by omega]
    rw [List.drop_append_eq_append_drop]
    rw [show i - s.length = 0 from by omega, List.drop_zero]
  rw [heq]
  exact hm2

theorem tryLens_eq_some (f : List Char → Option (List (List Char))) (captured : Bool)
    (s : List Char) (k : Nat) (caps : List (List Char))
    (h : tryLens f captured s k = some caps) :
    ∃ j caps2, f (s.drop j) = some caps2 ∧
      caps = if captured then s.take j :: caps2 else caps2 := by
  induction k with
  | zero => simp [tryLens] at h
  | succ k ih =>
    simp only [tryLens] at h
    cases hf : f (s.drop (k + 1)) with
    | some caps2 =>
      rw [hf] at h
      refine ⟨k + 1, caps2, hf, ?_⟩
      cases captured <;> simp at h <;> simp [h.symm]
    | none =>
      rw [hf] at h
      exact ih h

theorem matchToks_length (toks : List Tok) (s : List Char) (caps : List (List Char))
    (h : matchToks toks s = some caps) : caps.length = countCaps toks := by
  induction toks generalizing s caps with
  | nil =>
    simp [matchToks] at h
    simp [h.symm, countCaps]
  | cons tok rest ih =>
    cases tok with
    | lit c =>
      cases s with
      | nil => simp [matchToks] at h
      | cons c2 s2 =>
        simp only [matchToks] at h
        by_cases hc : c2 = c
        · rw [if_pos hc] at h
          rw [countCaps, List.countP_cons, show isCap (Tok.lit c) = false from rfl]
          rw [if_neg Bool.false_ne_true]
          have := ih s2 caps h
          rw [countCaps] at this
          omega
        · rw [if_neg hc] at h
          simp at h
    | plus p captured =>
      simp only [matchToks] at h
      obtain ⟨j, caps2, hf, hcaps⟩ := tryLens_eq_some _ _ _ _ _ h
      have hlen := ih _ _ hf
      subst hcaps
      rw [countCaps, List.countP_cons, show isCap (Tok.plus p captured) = captured from rfl]
      rw [countCaps] at hlen
      cases captured
      · simpa using hlen
      · simp [hlen]

theorem searchToks_length (toks : List Tok) (s : List Char) (caps : List (List Char))
    (h : searchToks toks s = some caps) : caps.length = countCaps toks := by
  obtain ⟨i, hm⟩ := searchToks_eq_some _ _ _ h
  exact matchToks_length _ _ _ hm

/-! ### Parser-level characterizations -/

theorem parseHeaderL_isSome_iff (s : List Char) :
    (parseHeaderL s).isSome = true ↔ (searchToks headerToks s).isSome = true := by
  unfold parseHeaderL
  cases hcase : searchToks headerToks s with
  | none => simp
  | some caps =>
    have hlen : caps.length = 3 := by
      rw [searchToks_length _ _ _ hcase]
      rfl
    rcases caps with _ | ⟨a, caps⟩
    · simp at hlen
    rcases caps with _ | ⟨b, caps⟩
    · simp at hlen
    rcases caps with _ | ⟨c, caps⟩
    · simp at hlen
    rcases caps with _ | ⟨d, caps⟩
    · simp
    · simp at hlen

theorem parsePathL_eq_some_of_search (t a d p : List Char)
    (hsearch : searchToks pathToks t = some [a, d, p])
    (ha : digitsToNat a < usizeBound) (hd : digitsToNat d < usizeBound) :
    parsePathL t = some ⟨digitsToNat a, digitsToNat d, String.mk p⟩ := by
  unfold parsePathL
  rw [hsearch]
  simp [parseUsize, ha, hd]

/-! ### No digit-then-whitespace adjacency in binary marker lines -/

theorem ws_not_digit (c : Char) (h : isWs c = true) : c.isDigit = false := by
  simp only [isWs, Bool.or_eq_true, decide_eq_true_eq] at h
  rcases h with ((((h | h) | h) | h) | h) | h <;> subst h <;> decide

theorem hasDigitWs_cons_not_digit (a : Char) (l : List Char) (ha : a.isDigit = false) :
    hasDigitWs (a :: l) = hasDigitWs l := by
  cases l with
  | nil => simp [hasDigitWs]
  | cons b t => simp [hasDigitWs, ha]

theorem hasDigitWs_cons_tail (a : Char) (l : List Char) (h : hasDigitWs l = true) :
    hasDigitWs (a :: l) = true := by
  cases l with
  | nil => simp [hasDigitWs] at h
  | cons b t => simp [hasDigitWs, h]

theorem hasDigitWs_append_ws (w l : List Char) (hw : w.all isWs = true) :
    hasDigitWs (w ++ l) = hasDigitWs l := by
  induction w with
  | nil => simp
  | cons c w2 ih =>
    simp only [List.all_cons, Bool.and_eq_true] at hw
    rw [List.cons_append, hasDigitWs_cons_not_digit _ _ (ws_not_digit c hw.1)]
    exact ih hw.2

theorem hasDigitWs_no_ws (l : List Char) (h : ∀ c ∈ l, isWs c = false) :
    hasDigitWs l = false := by
  induction l with
  | nil => rfl
  | cons a t ih =>
    cases t with
    | nil => rfl
    | cons b t2 =>
      have hb : isWs b = false := h b (by simp)
      simp only [hasDigitWs, hb, Bool.and_false, Bool.false_or]
      exact ih (fun c hc => h c (by simp [hc]))

theorem hasDigitWs_drop (l : List Char) (i : Nat) (h : hasDigitWs (l.drop i) = true) :
    hasDigitWs l = true := by
  induction i generalizing l with
  | zero => simpa using h
  | succ i ih =>
    cases l with
    | nil => simp [hasDigitWs] at h
    | cons a t =>
      rw [List.drop_succ_cons] at h
      exact hasDigitWs_cons_tail _ _ (ih t h)

theorem hasDigitWs_digit_ws (dl : List Char) (w : Char) (r : List Char)
    (hne : dl ≠ []) (hall : dl.all Char.isDigit = true) (hw : isWs w = true) :
    hasDigitWs (dl ++ w :: r) = true := by
  induction dl with
  | nil => exact absurd rfl hne
  | cons x dl2 ih =>
    simp only [List.all_cons, Bool.and_eq_true] at hall
    cases dl2 with
    | nil => simp [hasDigitWs, hall.1, hw]
    | cons y dl3 =>
      rw [List.cons_append]
      exact hasDigitWs_cons_tail _ _ (ih (by simp) hall.2)

theorem matchToks_pathToks_hasDigitWs (s : List Char)
    (h : (matchToks pathToks s).isSome = true) : hasDigitWs s = true := by
  rw [show pathToks = Tok.plus Char.isDigit true ::
      [Tok.plus isWs false, Tok.plus Char.isDigit true, Tok.plus isWs false,
       Tok.plus notWs true] from rfl] at h
  rw [matchToks_plus_isSome_iff] at h
  obtain ⟨j1, hj1a, hj1b, h⟩ := h
  rw [matchToks_plus_isSome_iff] at h
  obtain ⟨j2, hj2a, hj2b, -⟩ := h
  have hcm : 1 ≤ charsMatching isWs (s.drop j1) := le_trans hj2a hj2b
  obtain ⟨w, r2, hdrop, hw⟩ := charsMatching_pos _ _ hcm
  have htake : (s.take j1).all Char.isDigit = true := charsMatching_take _ _ _ hj1b
  have hlen : j1 ≤ s.length := le_trans hj1b (charsMatching_le_length _ _)
  have hne : s.take j1 ≠ [] := by
    have : (s.take j1).length = j1 := by
      rw [List.length_take]
      omega
    intro hnil
    rw [hnil] at this
    simp at this
    omega
  have hsplit : s = s.take j1 ++ s.drop j1 := (List.take_append_drop j1 s).symm
  rw [hsplit, hdrop]
  exact hasDigitWs_digit_ws _ _ _ hne htake hw

/-! ### Step lemmas for the run fold -/

theorem parsePath_empty : parsePath "" = none := by decide

theorem ne_empty_of_parsePath (line : String) (p : Path)
    (h : parsePath line = some p) : line ≠ "" := by
  intro he
  rw [he, parsePath_empty] at h
  exact Option.noConfusion h

theorem startsDash_ne_empty (line : String) (h : startsDash line = true) : line ≠ "" := by
  intro he
  rw [he] at h
  exact absurd h (by decide)

theorem runAux_nil (repo : String) (sinkOk : Nat → Bool) (st : State) (n : Nat)
    (acc : List Change) :
    runAux repo sinkOk [] st n acc = ⟨acc.reverse, none, []⟩ := by
  simp [runAux]

theorem runAux_reset_cons (repo : String) (sinkOk : Nat → Bool) (line : String)
    (rest : List String) (h : Header) (n : Nat) (acc : List Change)
    (hh : parseHeader line = some h) :
    runAux repo sinkOk (line :: rest) State.Reset n acc =
      runAux repo sinkOk rest (State.Next h) n acc := by
  simp [runAux, hh]

theorem runAux_next_empty (repo : String) (sinkOk : Nat → Bool) (rest : List String)
    (h : Header) (n : Nat) (acc : List Change) :
    runAux repo sinkOk ("" :: rest) (State.Next h) n acc =
      runAux repo sinkOk rest State.Reset n acc := by
  simp [runAux]

theorem runAux_next_dash (repo : String) (sinkOk : Nat → Bool) (line : String)
    (rest : List String) (h : Header) (n : Nat) (acc : List Change)
    (hd : startsDash line = true) :
    runAux repo sinkOk (line :: rest) (State.Next h) n acc =
      runAux repo sinkOk rest (State.Next h) n acc := by
  simp [runAux, startsDash_ne_empty line hd, hd]

theorem runAux_next_path (repo : String) (sinkOk : Nat → Bool) (line : String)
    (rest : List String) (h : Header) (p : Path) (n : Nat) (acc : List Change)
    (hne : line ≠ "") (hd : startsDash line = false) (hp : parsePath line = some p) :
    runAux repo sinkOk (line :: rest) (State.Next h) n acc =
      runAux repo sinkOk rest (State.Emit h p) n acc := by
  simp [runAux, hne, hd, hp]

theorem runAux_emit_ok (repo : String) (sinkOk : Nat → Bool) (line : String)
    (rest : List String) (h : Header) (p : Path) (n : Nat) (acc : List Change)
    (hs : sinkOk n = true) (hne : line ≠ "") :
    runAux repo sinkOk (line :: rest) (State.Emit h p) n acc =
      runAux repo sinkOk rest (State.Next h) (n + 1) (intoChange repo h p :: acc) := by
  simp [runAux, hs, hne]

theorem runAux_emit_ok_empty (repo : String) (sinkOk : Nat → Bool)
    (rest : List String) (h : Header) (p : Path) (n : Nat) (acc : List Change)
    (hs : sinkOk n = true) :
    runAux repo sinkOk ("" :: rest) (State.Emit h p) n acc =
      runAux repo sinkOk rest State.Reset (n + 1) (intoChange repo h p :: acc) := by
  simp [runAux, hs]

/-! ### Lockstep between the run and its provenance trace -/

theorem runAux_trace (repo : String) (sinkOk : Nat → Bool) (lines : List String) :
    ∀ (st : State) (n : Nat) (accT : List (Header × Path)),
      (runAux repo sinkOk lines st n
        (accT.map (fun hp => intoChange repo hp.1 hp.2))).emitted =
      (runAuxT sinkOk lines st n accT).map (fun hp => intoChange repo hp.1 hp.2) := by
  induction lines with
  | nil =>
    intro st n accT
    simp [runAux, runAuxT]
  | cons line rest ih =>
    intro st n accT
    cases st with
    | Reset =>
      cases hh : parseHeader line with
      | some h => simp only [runAux, runAuxT, hh]; exact ih _ _ _
      | none => simp [runAux, runAuxT, hh]
    | Next h =>
      by_cases he : line = ""
      · simp only [runAux, runAuxT, if_pos he]
        exact ih _ _ _
      · cases hd : startsDash line with
        | true =>
          simp only [runAux, runAuxT, if_neg he, hd, if_pos rfl]
          exact ih _ _ _
        | false =>
          cases hp : parsePath line with
          | some p =>
            simp only [runAux, runAuxT, if_neg he, hd, hp]
            exact ih _ _ _
          | none =>
            cases hh : parseHeader line with
            | some h2 =>
              simp only [runAux, runAuxT, if_neg he, hd, hp, hh]
              exact ih _ _ _
            | none => simp [runAux, runAuxT, he, hd, hp, hh]
    | Emit hh pp =>
      by_cases hs : sinkOk n
      · by_cases he : line = ""
        · have := ih State.Reset (n + 1) ((hh, pp) :: accT)
          simp only [List.map_cons] at this
          simpa [runAux, runAuxT, hs, he] using this
        · have := ih (State.Next hh) (n + 1) ((hh, pp) :: accT)
          simp only [List.map_cons] at this
          simpa [runAux, runAuxT, hs, he] using this
      · simp [runAux, runAuxT, hs]

/-! ### File-name and extension lemmas -/

theorem splitOnChar_ne_nil (sep : Char) (l : List Char) : splitOnChar sep l ≠ [] := by
  cases l with
  | nil => simp [splitOnChar]
  | cons c rest =>
    simp only [splitOnChar]
    cases splitOnChar sep rest with
    | nil => simp
    | cons h t =>
      by_cases hc : c = sep
      · simp [hc]
      · simp [hc]

theorem getLast?_cons_of_ne_nil (a : α) (l : List α) (h : l ≠ []) :
    (a :: l).getLast? = l.getLast? := by
  cases l with
  | nil => exact absurd rfl h
  | cons b t => exact List.getLast?_cons_cons

theorem filter_getLast? (l : List α) (pred : α → Bool) (x : α)
    (hl : l.getLast? = some x) (hx : pred x = true) :
    (l.filter pred).getLast? = some x := by
  induction l with
  | nil => simp at hl
  | cons a t ih =>
    cases t with
    | nil =>
      simp only [List.getLast?_singleton, Option.some.injEq] at hl
      subst hl
      simp [List.filter_cons, hx]
    | cons b t2 =>
      rw [List.getLast?_cons_cons] at hl
      have hfil := ih hl
      have hne : (b :: t2).filter pred ≠ [] := by
        intro hnil
        rw [hnil] at hfil
        simp at hfil
      rw [List.filter_cons]
      by_cases ha : pred a
      · rw [if_pos ha]
        rw [getLast?_cons_of_ne_nil _ _ hne]
        exact hfil
      · rw [if_neg ha]
        exact hfil

/-! ### Claim theorems -/

/-- Claim C1: lookahead-merge quirk, end-to-end scenario B. For input
consisting of a valid header line, two valid path-stat lines and a blank
line, the run emits exactly one Change, assembled from the header and the
first path-stat; the second path-stat line produces no record of its own
(the result does not depend on its payload, only on its non-emptiness). -/
theorem c1_scenario_b (repo : String) (sinkOk : Nat → Bool) (h1 p1 p2 : String)
    (H1 : Header) (P1 P2 : Path)
    (hh1 : parseHeader h1 = some H1)
    (hp1 : parsePath p1 = some P1) (hd1 : startsDash p1 = false)
    (hp2 : parsePath p2 = some P2)
    (hs : sinkOk 0 = true) :
    run repo sinkOk [h1, p1, p2, ""] = ⟨[intoChange repo H1 P1], none, []⟩ := by
  have hne1 := ne_empty_of_parsePath p1 P1 hp1
  have hne2 := ne_empty_of_parsePath p2 P2 hp2
  unfold run
  rw [runAux_reset_cons _ _ _ _ _ _ _ hh1,
    runAux_next_path _ _ _ _ _ _ _ _ hne1 hd1 hp1,
    runAux_emit_ok _ _ _ _ _ _ _ _ hs hne2,
    runAux_next_empty, runAux_nil]
  rfl

/-- Witness for C1 at concrete input. -/
theorem c1_scenario_b_witness :
    run "r" allOk ["\"a\",\"b\",\"c\"", "1\t2\tx.rs", "3\t4\ty.rs", ""] =
      ⟨[intoChange "r" ⟨"a", "b", "c"⟩ ⟨1, 2, "x.rs"⟩], none, []⟩ :=
  c1_scenario_b "r" allOk "\"a\",\"b\",\"c\"" "1\t2\tx.rs" "3\t4\ty.rs"
    ⟨"a", "b", "c"⟩ ⟨1, 2, "x.rs"⟩ ⟨3, 4, "y.rs"⟩
    (by decide) (by decide) (by decide) (by decide) rfl

/-- Claim C2: end-to-end scenario A. For a valid header line, the path-stat
line with 6 additions, 3 deletions and path foo/bar/baz.rs, and a blank
line, the run emits exactly one Change with the given repo label, the
header's fields, path foo/bar/baz.rs, extension rs, Default category,
6 additions and 3 deletions. -/
theorem c2_scenario_a (repo : String) (sinkOk : Nat → Bool) (h1 : String) (H1 : Header)
    (hh1 : parseHeader h1 = some H1) (hs : sinkOk 0 = true) :
    run repo sinkOk [h1, "6\t3\tfoo/bar/baz.rs", ""] =
      ⟨[{ repo := repo, sha := H1.sha, author := H1.author, timestamp := H1.timestamp,
          path := "foo/bar/baz.rs", ext := some "rs", category := Category.Default,
          additions := 6, deletions := 3 }], none, []⟩ := by
  have hp : parsePath "6\t3\tfoo/bar/baz.rs" = some ⟨6, 3, "foo/bar/baz.rs"⟩ := by decide
  have he : pathExtension "foo/bar/baz.rs" = some "rs" := by decide
  have hc : Change.categorize "foo/bar/baz.rs" = Category.Default := by decide
  unfold run
  rw [runAux_reset_cons _ _ _ _ _ _ _ hh1,
    runAux_next_path _ _ _ _ _ _ _ _ (by decide) (by decide) hp,
    runAux_emit_ok_empty _ _ _ _ _ _ _ hs, runAux_nil]
  simp [intoChange, he, hc]

/-- Witness for C2 at concrete input. -/
theorem c2_scenario_a_witness :
    run "r" allOk ["\"a\",\"b\",\"c\"", "6\t3\tfoo/bar/baz.rs", ""] =
      ⟨[{ repo := "r", sha := "a", author := "b", timestamp := "c",
          path := "foo/bar/baz.rs", ext := some "rs", category := Category.Default,
          additions := 6, deletions := 3 }], none, []⟩ :=
  c2_scenario_a "r" allOk "\"a\",\"b\",\"c\"" ⟨"a", "b", "c"⟩ (by decide) rfl

/-- Claim C3: no end-of-stream flush. When the input is exhausted while the
machine is in the Emit state holding a complete pending record, the run
ends successfully without emitting it; in particular a run on just a header
line and a path-stat line emits no Change at all. -/
theorem c3_no_flush :
    (∀ (repo : String) (sinkOk : Nat → Bool) (h : Header) (p : Path) (n : Nat)
        (acc : List Change),
      runAux repo sinkOk [] (State.Emit h p) n acc = ⟨acc.reverse, none, []⟩) ∧
    (∀ (repo : String) (sinkOk : Nat → Bool) (h1 p1 : String) (H1 : Header) (P1 : Path),
      parseHeader h1 = some H1 → parsePath p1 = some P1 → startsDash p1 = false →
      run repo sinkOk [h1, p1] = ⟨[], none, []⟩) := by
  constructor
  · intro repo sinkOk h p n acc
    exact runAux_nil repo sinkOk (State.Emit h p) n acc
  · intro repo sinkOk h1 p1 H1 P1 hh1 hp1 hd1
    have hne1 := ne_empty_of_parsePath p1 P1 hp1
    unfold run
    rw [runAux_reset_cons _ _ _ _ _ _ _ hh1,
      runAux_next_path _ _ _ _ _ _ _ _ hne1 hd1 hp1, runAux_nil]
    rfl

/-- Witness for C3 at concrete input. -/
theorem c3_no_flush_witness :
    run "r" allOk ["\"a\",\"b\",\"c\"", "1\t2\tx.rs"] = ⟨[], none, []⟩ :=
  c3_no_flush.2 "r" allOk _ _ ⟨"a", "b", "c"⟩ ⟨1, 2, "x.rs"⟩
    (by decide) (by decide) (by decide)

/-- Claim C4: awaiting-path fallback disambiguation. In the Next state, a
non-empty line that does not start with the dash placeholder is first tried
as a path-stat (success moves to Emit with that stat); on failure it is
tried as a header (success moves to Next with the new header, the old one
discarded); if both fail the run stops at once with a parse failure,
consuming no further lines. -/
theorem c4_fallback (repo : String) (sinkOk : Nat → Bool) (h : Header) (line : String)
    (rest : List String) (n : Nat) (acc : List Change)
    (hne : line ≠ "") (hd : startsDash line = false) :
    (∀ p : Path, parsePath line = some p →
      runAux repo sinkOk (line :: rest) (State.Next h) n acc =
        runAux repo sinkOk rest (State.Emit h p) n acc) ∧
    (∀ h2 : Header, parsePath line = none → parseHeader line = some h2 →
      runAux repo sinkOk (line :: rest) (State.Next h) n acc =
        runAux repo sinkOk rest (State.Next h2) n acc) ∧
    (parsePath line = none → parseHeader line = none →
      runAux repo sinkOk (line :: rest) (State.Next h) n acc =
        ⟨acc.reverse, some (RunError.parseFailure line), rest⟩) := by
  refine ⟨?_, ?_, ?_⟩
  · intro p hp
    simp [runAux, hne, hd, hp]
  · intro h2 hp hh
    simp [runAux, hne, hd, hp, hh]
  · intro hp hh
    simp [runAux, hne, hd, hp, hh]

/-- Witness for C4 at concrete input. -/
theorem c4_fallback_witness :
    runAux "r" allOk ["1\t2\tx.rs"] (State.Next ⟨"a", "b", "c"⟩) 0 [] =
      runAux "r" allOk [] (State.Emit ⟨"a", "b", "c"⟩ ⟨1, 2, "x.rs"⟩) 0 [] :=
  (c4_fallback "r" allOk ⟨"a", "b", "c"⟩ "1\t2\tx.rs" [] 0 []
    (by decide) (by decide)).1 ⟨1, 2, "x.rs"⟩ (by decide)

/-- Claim C5: binary marker lines are skipped structurally. In the Next
state a line starting with the dash placeholder causes no emission and no
state change, and in the end-to-end scenario with a header, a binary marker
line, a path-stat line and a blank line, exactly one Change is emitted, for
the path-stat line. -/
theorem c5_binary_skip :
    (∀ (repo : String) (sinkOk : Nat → Bool) (h : Header) (line : String)
        (rest : List String) (n : Nat) (acc : List Change),
      startsDash line = true →
      runAux repo sinkOk (line :: rest) (State.Next h) n acc =
        runAux repo sinkOk rest (State.Next h) n acc) ∧
    (∀ (repo : String) (sinkOk : Nat → Bool) (h1 p1 : String) (H1 : Header) (P1 : Path),
      parseHeader h1 = some H1 → parsePath p1 = some P1 → startsDash p1 = false →
      sinkOk 0 = true →
      run repo sinkOk [h1, "-\t-\tsome/binary.png", p1, ""] =
        ⟨[intoChange repo H1 P1], none, []⟩) := by
  constructor
  · intro repo sinkOk h line rest n acc hd
    exact runAux_next_dash _ _ _ _ _ _ _ hd
  · intro repo sinkOk h1 p1 H1 P1 hh1 hp1 hd1 hs
    have hne1 := ne_empty_of_parsePath p1 P1 hp1
    unfold run
    rw [runAux_reset_cons _ _ _ _ _ _ _ hh1,
      runAux_next_dash _ _ _ _ _ _ _ (by decide),
      runAux_next_path _ _ _ _ _ _ _ _ hne1 hd1 hp1,
      runAux_emit_ok_empty _ _ _ _ _ _ _ hs, runAux_nil]
    rfl

/-- Witness for C5 at concrete input. -/
theorem c5_binary_skip_witness :
    run "r" allOk ["\"a\",\"b\",\"c\"", "-\t-\tsome/binary.png", "1\t2\tx.rs", ""] =
      ⟨[intoChange "r" ⟨"a", "b", "c"⟩ ⟨1, 2, "x.rs"⟩], none, []⟩ :=
  c5_binary_skip.2 "r" allOk _ _ ⟨"a", "b", "c"⟩ ⟨1, 2, "x.rs"⟩
    (by decide) (by decide) (by decide) rfl

/-- Claim C6: binary marker lines never parse as a PathStat. Any line of
the shape dash, whitespace, dash, whitespace, non-whitespace path fails the
path-stat parse rather than having its counts coerced to zero: no
whitespace character ever follows a digit in such a line, while any match
of the path regex needs one. -/
theorem c6_binary_reject (w1 w2 p : List Char)
    (_hw1 : w1 ≠ []) (ha1 : w1.all isWs = true)
    (_hw2 : w2 ≠ []) (ha2 : w2.all isWs = true)
    (_hp : p ≠ []) (hap : p.all notWs = true) :
    parsePath (String.mk ('-' :: w1 ++ '-' :: w2 ++ p)) = none := by
  have hfalse : hasDigitWs ('-' :: (w1 ++ ('-' :: (w2 ++ p)))) = false := by
    rw [hasDigitWs_cons_not_digit '-' _ (by decide)]
    rw [hasDigitWs_append_ws _ _ ha1]
    rw [hasDigitWs_cons_not_digit '-' _ (by decide)]
    rw [hasDigitWs_append_ws _ _ ha2]
    refine hasDigitWs_no_ws _ (fun c hc => ?_)
    have := List.all_eq_true.mp hap c hc
    simpa [notWs] using this
  show parsePathL ('-' :: w1 ++ '-' :: w2 ++ p) = none
  cases hcase : searchToks pathToks ('-' :: w1 ++ '-' :: w2 ++ p) with
  | none =>
    unfold parsePathL
    rw [hcase]
  | some caps =>
    exfalso
    have hsome : (searchToks pathToks ('-' :: w1 ++ '-' :: w2 ++ p)).isSome = true := by
      rw [hcase]; rfl
    rw [searchToks_isSome_iff] at hsome
    obtain ⟨i, hi, hm⟩ := hsome
    have h1 := matchToks_pathToks_hasDigitWs _ hm
    have h2 := hasDigitWs_drop _ _ h1
    simp only [List.cons_append, List.append_assoc] at h2
    rw [hfalse] at h2
    exact Bool.noConfusion h2

/-- Witness for C6 at concrete input. -/
theorem c6_binary_reject_witness :
    parsePath (String.mk
      ('-' :: ['\t'] ++ '-' :: ['\t'] ++ ['x', '.', 'p', 'n', 'g'])) = none :=
  c6_binary_reject ['\t'] ['\t'] ['x', '.', 'p', 'n', 'g']
    (by decide) (by decide) (by decide) (by decide) (by decide) (by decide)

/-- Claim C7: header-provenance invariant. Every Change emitted by a run
comes from a header and path the machine held in its Emit state at the
moment of that emission (as recorded by the provenance trace), and its
sha, author and timestamp equal that header's fields. -/
theorem c7_header_provenance (repo : String) (sinkOk : Nat → Bool) (lines : List String)
    (c : Change) (hc : c ∈ (run repo sinkOk lines).emitted) :
    ∃ hp ∈ runT sinkOk lines, c = intoChange repo hp.1 hp.2 ∧
      c.sha = hp.1.sha ∧ c.author = hp.1.author ∧ c.timestamp = hp.1.timestamp := by
  have htr := runAux_trace repo sinkOk lines State.Reset 0 []
  unfold run at hc
  rw [show ([] : List (Header × Path)).map
      (fun hp => intoChange repo hp.1 hp.2) = [] from rfl] at htr
  rw [htr] at hc
  obtain ⟨hp, hmem, hgc⟩ := List.mem_map.mp hc
  refine ⟨hp, hmem, hgc.symm, ?_, ?_, ?_⟩ <;> rw [← hgc] <;> rfl

/-- Witness for C7 at concrete input. -/
theorem c7_header_provenance_witness :
    ∃ hp ∈ runT allOk ["\"a\",\"b\",\"c\"", "1\t2\tx.rs", ""],
      intoChange "r" ⟨"a", "b", "c"⟩ ⟨1, 2, "x.rs"⟩ = intoChange "r" hp.1 hp.2 ∧
      (intoChange "r" ⟨"a", "b", "c"⟩ ⟨1, 2, "x.rs"⟩).sha = hp.1.sha ∧
      (intoChange "r" ⟨"a", "b", "c"⟩ ⟨1, 2, "x.rs"⟩).author = hp.1.author ∧
      (intoChange "r" ⟨"a", "b", "c"⟩ ⟨1, 2, "x.rs"⟩).timestamp = hp.1.timestamp :=
  c7_header_provenance "r" allOk ["\"a\",\"b\",\"c\"", "1\t2\tx.rs", ""]
    (intoChange "r" ⟨"a", "b", "c"⟩ ⟨1, 2, "x.rs"⟩) (by decide)

/-- Claim C9: sink-failure atomic abort. When the machine is in the Emit
state holding its n-th assembled record and the sink rejects emission n,
the run stops at once with the sink failure: the previously emitted
records are returned unchanged, and no line beyond the one being processed
is consumed. -/
theorem c9_sink_abort (repo : String) (sinkOk : Nat → Bool) (line : String)
    (rest : List String) (h : Header) (p : Path) (n : Nat) (acc : List Change)
    (hs : sinkOk n = false) :
    runAux repo sinkOk (line :: rest) (State.Emit h p) n acc =
      ⟨acc.reverse, some RunError.sinkFailure, rest⟩ := by
  simp [runAux, hs]

/-- Witness for C9 at concrete input. -/
theorem c9_sink_abort_witness :
    runAux "r" neverOk ["3\t4\ty.rs", "5\t6\tz.rs"]
      (State.Emit ⟨"a", "b", "c"⟩ ⟨1, 2, "x.rs"⟩) 0 [] =
      ⟨[], some RunError.sinkFailure, ["5\t6\tz.rs"]⟩ :=
  c9_sink_abort "r" neverOk "3\t4\ty.rs" ["5\t6\tz.rs"] ⟨"a", "b", "c"⟩
    ⟨1, 2, "x.rs"⟩ 0 [] rfl

/-- Claim C8 counterexample: the claim's rule and the code disagree on the
path a/b/.. — its final slash-separated component is .., whose only dots
are not only-leading, so the claimed rule yields the empty extension, while
the code (std file_name returns nothing for a parent-directory component)
stores no extension. -/
theorem c8_extension_counterexample :
    pathExtension "a/b/.." = none ∧ specExtractor "a/b/.." = some "" ∧
    pathExtension "a/b/.." ≠ specExtractor "a/b/.." := by decide

/-- Claim C8 (amended): the extension stored in an assembled Change is
computed by pathExtension from the path, and for every path whose final
slash-separated component is non-empty and neither the current-directory
nor the parent-directory dot component, it equals the spec's rule (the
substring after the final dot of that component, absent when there is no
dot or the only dot is the leading character); in particular the three
example paths behave as claimed. -/
theorem c8_extension_amended :
    (∀ (repo : String) (h : Header) (p : Path),
      (intoChange repo h p).ext = pathExtension p.path) ∧
    (∀ (path : String) (c : List Char),
      (splitOnChar '/' path.data).getLastD [] = c →
      c ≠ [] → c ≠ ['.'] → c ≠ ['.', '.'] →
      pathExtension path = specExtractor path) ∧
    pathExtension "a/b/c.rs" = some "rs" ∧
    pathExtension "a/b/.gitignore" = none ∧
    pathExtension "a/b/noext" = none := by
  refine ⟨fun repo h p => rfl, ?_, by decide, by decide, by decide⟩
  intro path c hc h1 h2 h3
  have hlast : (splitOnChar '/' path.data).getLast? = some c := by
    cases hl : (splitOnChar '/' path.data).getLast? with
    | none =>
      exfalso
      apply h1
      rw [List.getLastD_eq_getLast?, hl] at hc
      exact hc.symm
    | some y =>
      rw [List.getLastD_eq_getLast?, hl] at hc
      exact congrArg some hc
  have hpred : (fun seg => !(decide (seg = []) || decide (seg = ['.']))) c = true := by
    simp [h1, h2]
  have hfil := filter_getLast? (splitOnChar '/' path.data)
    (fun seg => !(decide (seg = []) || decide (seg = ['.']))) c hlast hpred
  have hfn : fileName path.data = some c := by
    unfold fileName
    rw [hfil]
    exact if_neg h3
  cases c with
  | nil => exact absurd rfl h1
  | cons c0 restc =>
    unfold pathExtension specExtractor
    rw [hfn, hc]

/-- Witness for the amended C8 at concrete input. -/
theorem c8_extension_amended_witness :
    pathExtension "foo/bar/baz.rs" = specExtractor "foo/bar/baz.rs" :=
  c8_extension_amended.2.1 "foo/bar/baz.rs" ['b', 'a', 'z', '.', 'r', 's']
    (by decide) (by decide) (by decide) (by decide)

/-- Claim C10 counterexample: the path-stat parser does not accept every
line containing a match of its pattern. Extending the parsable line
6-space-3-space-foo with a leading run of twenty nines makes the leftmost
regex match capture a number that overflows usize, so the recap parse of
the whole line fails even though the line still contains the original
match as a substring. -/
theorem c10_substring_counterexample :
    parsePath "6 3 foo" = some ⟨6, 3, "foo"⟩ ∧
    String.mk ("99999999999999999999 8 ".data ++ "6 3 foo".data) =
      "99999999999999999999 8 6 3 foo" ∧
    parsePath "99999999999999999999 8 6 3 foo" = none := by decide

/-- Claim C10 (amended): both parsers match substrings, not whole lines.
Header parsing succeeds on any extension of a successfully parsed line by
arbitrary surrounding text; the path regex likewise finds a match in any
such extension, and the path-stat parse succeeds whenever the leftmost
match's numeric captures fit in usize; in particular the line
6-space-3-space-foo-space-bar parses to additions 6, deletions 3 and path
foo with the trailing text discarded, and a quoted header triple
surrounded by extra characters still parses as a Header. -/
theorem c10_substring_matching :
    (∀ (s pre suf : List Char), (parseHeader (String.mk s)).isSome = true →
      (parseHeader (String.mk (pre ++ s ++ suf))).isSome = true) ∧
    (∀ (s pre suf : List Char), (searchToks pathToks s).isSome = true →
      (searchToks pathToks (pre ++ s ++ suf)).isSome = true) ∧
    (∀ (t a d p : List Char), searchToks pathToks t = some [a, d, p] →
      digitsToNat a < usizeBound → digitsToNat d < usizeBound →
      parsePath (String.mk t) = some ⟨digitsToNat a, digitsToNat d, String.mk p⟩) ∧
    parsePath "6 3 foo bar" = some ⟨6, 3, "foo"⟩ ∧
    parseHeader "x\"a\",\"b\",\"c\"y" = some ⟨"a", "b", "c"⟩ := by
  refine ⟨?_, ?_, ?_, by decide, by decide⟩
  · intro s pre suf h
    have h2 : (parseHeaderL s).isSome = true := h
    rw [parseHeaderL_isSome_iff] at h2
    have h3 := searchToks_infix headerToks s pre suf h2
    show (parseHeaderL (pre ++ s ++ suf)).isSome = true
    rw [parseHeaderL_isSome_iff]
    exact h3
  · intro s pre suf h
    exact searchToks_infix pathToks s pre suf h
  · intro t a d p hsearch ha hd
    exact parsePathL_eq_some_of_search t a d p hsearch ha hd

/-- Witness for the amended C10 at concrete input. -/
theorem c10_substring_matching_witness :
    (parseHeader (String.mk
      ("x".data ++ "\"a\",\"b\",\"c\"".data ++ "y".data))).isSome = true :=
  c10_substring_matching.1 "\"a\",\"b\",\"c\"".data "x".data "y".data (by decide)

end GitLinecat
